import Mathlib

/-!
# Verification of the brute-force hash reverser (`src/hash.py`)

Shallow embedding of the keyspace-enumeration and work-partitioning engine
of `hash.py`.  Python strings (and the byte strings the workers hash) are
modelled as `List Char`; UTF-8 encoding is a bijection between the two views,
so the hash library is modelled as an opaque-to-us *parameter*
`h : List Char → β` (hashlib is the Python standard library, not part of
this repository).  Wall-clock times (`time.time()` deltas) are not modelled;
the `show_each` printing flag only prints and is dropped.
-/

/-- `itertools.product(charset, repeat=n)` joined to a string: all length-`n`
words over `cs`, leftmost position varying slowest (lexicographic order in
the alphabet's own order).  Used by both `single_process_search`
(`hash.py:117`) and `worker_task` (`hash.py:89`). -/
def kprod (cs : List Char) : Nat → List (List Char)
  | 0 => [[]]
  | n + 1 => cs.flatMap (fun a => (kprod cs n).map (fun t => a :: t))

/-- Python `range(a, b + 1)`, i.e. the inclusive integer interval `[a..b]`
(empty when `b < a`). -/
def rangeIncl (a b : Nat) : List Nat := List.range' a (b + 1 - a)

/-- The candidate stream of `single_process_search` (`hash.py:116-118`):
`for length in range(1, max_len + 1): for tup in product(charset, repeat=length)`. -/
def candidates (cs : List Char) (maxLen : Nat) : List (List Char) :=
  (rangeIncl 1 maxLen).flatMap (fun len => kprod cs len)

/-- The keyspace of the spec's glossary: all candidates of lengths
`1..max_length` over the alphabet (as the list `single_process_search`
enumerates; membership in it is the keyspace as a set). -/
def keyspace (cs : List Char) (maxLen : Nat) : List (List Char) :=
  candidates cs maxLen

/-- The loop body of `single_process_search` (`hash.py:116-124`) over an
explicit candidate list: `tries` is incremented before each hash test and the
first match returns `(s, tries)`; exhaustion returns `(None, tries)`. -/
def searchList {β : Type} [DecidableEq β] (h : List Char → β) (tgt : β) :
    List (List Char) → Nat → Option (List Char) × Nat
  | [], tries => (none, tries)
  | s :: rest, tries =>
      if h s = tgt then (some s, tries + 1) else searchList h tgt rest (tries + 1)

/-- `single_process_search(target_bytes, alg, max_len, charset, show_each)`
(`hash.py:113-126`), with `hashlib.new(alg, ·).digest()` abstracted into
`h`.  Returns the found candidate (if any) and the `tries` counter. -/
def single_process_search {β : Type} [DecidableEq β] (h : List Char → β)
    (tgt : β) (maxLen : Nat) (cs : List Char) : Option (List Char) × Nat :=
  searchList h tgt (candidates cs maxLen) 0

/-- Inner loop of `make_prefixes` (`hash.py:59-63`): `for b in charset:`
append `a + b` to the accumulator and return (flag `true`) as soon as
`len(prefixes) >= workers`. -/
def innerPairs (a : Char) (w : Nat) : List Char → List (List Char) → List (List Char) × Bool
  | [], acc => (acc, false)
  | b :: r, acc =>
      let acc' := acc ++ [[a, b]]
      if w ≤ acc'.length then (acc', true) else innerPairs a w r acc'

/-- Outer loop of `make_prefixes` (`hash.py:59-64`): `for a in charset:` run
the inner loop; the early `return` inside the inner loop ends both loops. -/
def outerPairs (cs : List Char) (w : Nat) : List Char → List (List Char) → List (List Char)
  | [], acc => acc
  | a :: r, acc =>
      match innerPairs a w cs acc with
      | (acc', true) => acc'
      | (acc', false) => outerPairs cs w r acc'

/-- `make_prefixes(charset, workers)` (`hash.py:48-64`). -/
def make_prefixes (cs : List Char) (workers : Nat) : List (List Char) :=
  if workers ≤ 1 then [[]]
  else
    let singles := cs.map (fun c => [c])
    if workers ≤ singles.length then singles.take workers
    else outerPairs cs workers cs []

/-- Partitioner policy as worded by the spec (§4.4 / claim C5): a second,
spec-side definition to compare `make_prefixes` against.  Case 1: `[' ']`
empty-prefixed single unit; case 2: first `workers` one-symbol prefixes;
case 3: two-symbol Cartesian product in lexicographic order, cut at
`workers`. -/
def makePrefixesSpec (cs : List Char) (workers : Nat) : List (List Char) :=
  if workers ≤ 1 then [[]]
  else if workers ≤ cs.length then (cs.take workers).map (fun c => [c])
  else (cs.flatMap (fun a => cs.map (fun b => [a, b]))).take workers

/-- Worker-local state of `worker_task` (`hash.py:67-110`).  `local_tries`
and `counter` are the variables of the source (`counter` is the shared
`multiprocessing` counter's value, explicit state here); `tested`, `maxBuf`
and `flushes` are ghost instrumentation: total hash tests performed, the
largest buffered `local_tries` ever reached, and the amounts moved by the
periodic (line 101-105) flushes. -/
structure WState where
  local_tries : Nat
  counter : Nat
  tested : Nat
  maxBuf : Nat
  flushes : List Nat
  deriving Repr, DecidableEq

/-- One length-block of `worker_task`'s enumeration (`hash.py:78-100`):
each candidate bumps `local_tries`; a hash match adds `local_tries` to the
shared counter (`hash.py:85-86` / `98-99`) and returns. -/
def runBlock {β : Type} [DecidableEq β] (h : List Char → β) (tgt : β) :
    List (List Char) → WState → Option (List Char) × WState
  | [], st => (none, st)
  | c :: rest, st =>
      let lt := st.local_tries + 1
      let st1 : WState :=
        { st with local_tries := lt, tested := st.tested + 1, maxBuf := max st.maxBuf lt }
      if h c = tgt then (some c, { st1 with counter := st1.counter + lt })
      else runBlock h tgt rest st1

/-- The candidates `worker_task` hashes at one `length`
(`hash.py:76-79, 89-90`): `rem = length - len(prefix)`; if `rem == 0` the
single candidate is the prefix itself, else the prefix followed by each
`product(charset, repeat=rem)` tuple. -/
def lenBlock (pfx cs : List Char) (len : Nat) : List (List Char) :=
  if len - pfx.length = 0 then [pfx]
  else (kprod cs (len - pfx.length)).map (fun t => pfx ++ t)

/-- The length-blocks of `worker_task`'s outer loop
(`hash.py:76`): `for length in range(len(prefix), max_len + 1)`. -/
def blocks (pfx cs : List Char) (maxLen : Nat) : List (List (List Char)) :=
  (rangeIncl pfx.length maxLen).map (lenBlock pfx cs)

/-- The periodic flush of `worker_task` (`hash.py:101-105`), run once after
each length-block: only when `local_tries` is a nonzero exact multiple of
1000 is the buffer moved into the shared counter and reset. -/
def flushStep (st : WState) : WState :=
  if st.local_tries ≠ 0 ∧ st.local_tries % 1000 = 0 then
    { st with
      counter := st.counter + st.local_tries
      local_tries := 0
      flushes := st.flushes ++ [st.local_tries] }
  else st

/-- The outer loop of `worker_task` over its length-blocks plus the final
flush (`hash.py:76-110`).  Returns `(found, returned local_tries, state)`:
on a match the source returns the pre-flush `local_tries`
(`hash.py:87, 100`); on exhaustion it returns `0` after the last flush
(`hash.py:106-110`). -/
def runLengths {β : Type} [DecidableEq β] (h : List Char → β) (tgt : β) :
    List (List (List Char)) → WState → Option (List Char) × Nat × WState
  | [], st =>
      let stF := if st.local_tries ≠ 0 then { st with counter := st.counter + st.local_tries } else st
      (none, 0, stF)
  | blk :: rest, st =>
      match runBlock h tgt blk st with
      | (some c, st') => (some c, st'.local_tries, st')
      | (none, st') => runLengths h tgt rest (flushStep st')

/-- `worker_task((prefix, target_bytes, alg, max_len, charset, counter, show_each))`
(`hash.py:67-110`), the hash library abstracted into `h` and the shared
counter's start value passed as `counter0`. -/
def worker_task {β : Type} [DecidableEq β] (h : List Char → β) (tgt : β)
    (pfx cs : List Char) (maxLen : Nat) (counter0 : Nat) :
    Option (List Char) × Nat × WState :=
  runLengths h tgt (blocks pfx cs maxLen)
    { local_tries := 0, counter := counter0, tested := 0, maxBuf := 0, flushes := [] }

/-- The full candidate stream a `worker_task` run tests when no match stops
it: its length-blocks in order. -/
def workerStream (pfx cs : List Char) (maxLen : Nat) : List (List Char) :=
  (blocks pfx cs maxLen).flatten

/-- `single_process_search` with the hash library's support check made
explicit: `hashlib.new(alg, ...)` raises `ValueError` on an unsupported
algorithm name, which in the source happens inside the per-candidate loop
(`hash.py:122`), i.e. only once the first candidate has been enumerated.
An error carries the value of `tries` at the raise (ghost: how many
candidates were enumerated before the error surfaced). -/
def searchListExc {β : Type} [DecidableEq β] (supported : Bool)
    (h : List Char → β) (tgt : β) :
    List (List Char) → Nat → Except Nat (Option (List Char) × Nat)
  | [], tries => .ok (none, tries)
  | s :: rest, tries =>
      if supported then
        if h s = tgt then .ok (some s, tries + 1)
        else searchListExc supported h tgt rest (tries + 1)
      else .error (tries + 1)

/-- `single_process_search` under a hash library for which the requested
algorithm is (`supported = true`) or is not (`supported = false`)
available. -/
def single_process_search_exc {β : Type} [DecidableEq β] (supported : Bool)
    (h : List Char → β) (tgt : β) (maxLen : Nat) (cs : List Char) :
    Except Nat (Option (List Char) × Nat) :=
  searchListExc supported h tgt (candidates cs maxLen) 0

/-- `single_process_search` with the Python `int` argument `max_len`:
`range(1, max_len + 1)` is empty for every `max_len < 1`, i.e. it equals
`[1 .. max_len.toNat]`. -/
def single_process_search_int {β : Type} [DecidableEq β] (h : List Char → β)
    (tgt : β) (maxLen : Int) (cs : List Char) : Option (List Char) × Nat :=
  single_process_search h tgt maxLen.toNat cs

/-- `L + L^2 + ... + L^m`: the number of candidates of the lengths `1..m`
over an alphabet of `L` symbols. -/
def sumPow (L : Nat) : Nat → Nat
  | 0 => 0
  | m + 1 => sumPow L m + L ^ (m + 1)

/-- Zero-based lexicographic rank of a word among all words of its own
length over `cs` (positional number system with digit values
`cs.indexOf`). -/
def rankIdx (cs : List Char) : List Char → Nat
  | [] => 0
  | c :: t => cs.indexOf c * cs.length ^ t.length + rankIdx cs t

/-- Lowercase hex digit of a value `< 16`, as produced by Python's
`hexdigest()`. -/
def hexDigitChar (n : Nat) : Char :=
  if n < 10 then Char.ofNat (48 + n) else Char.ofNat (87 + n)

/-- Value of one hex digit, as accepted by Python's `bytes.fromhex`
(digits, lowercase and uppercase letters). -/
def hexDigitVal (c : Char) : Option Nat :=
  if 48 ≤ c.toNat ∧ c.toNat ≤ 57 then some (c.toNat - 48)
  else if 97 ≤ c.toNat ∧ c.toNat ≤ 102 then some (c.toNat - 87)
  else if 65 ≤ c.toNat ∧ c.toNat ≤ 70 then some (c.toNat - 55)
  else none

/-- Python's `digest.hexdigest()`: two lowercase hex digits per byte.  A
digest is a byte string, modelled as a `List Nat` of values `< 256`. -/
def hexdigest (bs : List Nat) : List Char :=
  bs.flatMap (fun b => [hexDigitChar (b / 16), hexDigitChar (b % 16)])

/-- Python's `bytes.fromhex` on a string without whitespace (`hash.py:164`
applies it to a hexdigest, which never holds whitespace): pairs of hex
digits, failing on an odd length or a non-hex character. -/
def bytes_fromhex : List Char → Option (List Nat)
  | [] => some []
  | [_] => none
  | c1 :: c2 :: rest =>
      match hexDigitVal c1, hexDigitVal c2, bytes_fromhex rest with
      | some h1, some h2, some bs => some ((16 * h1 + h2) :: bs)
      | _, _, _ => none

/-- The single-process path of `main` (`hash.py:129-184`) after a password
is supplied: line 136 binds `alg = 'md5'` ignoring `args.alg`
(`argsAlg` here), line 155 hashes the password with `'md5'` into a hex
string, line 164 decodes it back to bytes (exiting on failure, the `none`
branch), and line 175 runs `single_process_search`.  The hash library is
the parameter `h : algorithm name → input → digest bytes`. -/
def main_single (h : String → List Char → List Nat) (password : List Char)
    (argsAlg : String) (maxLen : Nat) (cs : List Char) :
    Option (Option (List Char) × Nat) :=
  let alg := "md5"
  let target := hexdigest (h "md5" password)
  match bytes_fromhex target with
  | none => none
  | some target_bytes => some (single_process_search (h alg) target_bytes maxLen cs)

/-- The multiprocessing path of `main` up to the argument tuples handed to
the worker pool (`hash.py:186-194`): each unit receives
`(pfx, target_bytes, alg, max_len, charset)` with `alg = 'md5'` from line
136 (the shared counter and `show_each` are dropped here). -/
def main_pool_args (h : String → List Char → List Nat) (password : List Char)
    (argsAlg : String) (maxLen : Nat) (cs : List Char) (workers : Nat) :
    Option (List (List Char × List Nat × String × Nat × List Char)) :=
  let alg := "md5"
  let target := hexdigest (h "md5" password)
  match bytes_fromhex target with
  | none => none
  | some target_bytes =>
      some ((make_prefixes cs workers).map (fun pfx => (pfx, target_bytes, alg, maxLen, cs)))

/-- `CHARSETS['lower'] = string.ascii_lowercase` (`hash.py:29`). -/
def ascii_lowercase : List Char := "abcdefghijklmnopqrstuvwxyz".toList

/-- A periodic flush amount: positive and an exact multiple of 1000. -/
def flushOk (a : Nat) : Prop := 0 < a ∧ a % 1000 = 0

/-- Whether a run over length-blocks of the given sizes, starting from a
buffered count `l`, never satisfies the periodic flush condition of
`hash.py:102` at any block boundary. -/
def noFlush (l : Nat) : List Nat → Bool
  | [] => true
  | n :: rest => !(decide ((l + n) ≠ 0 ∧ (l + n) % 1000 = 0)) && noFlush (l + n) rest

/-! ## Helper lemmas: sizes and splits of the enumeration -/

theorem flatMap_length_const {α β : Type} (f : α → List β) (k : Nat) :
    ∀ l : List α, (∀ a ∈ l, (f a).length = k) → (l.flatMap f).length = l.length * k
  | [], _ => by simp
  | a :: r, hl => by
    have ha := hl a (by simp)
    have hr := flatMap_length_const f k r (fun x hx => hl x (by simp [hx]))
    simp [List.flatMap_cons, ha, hr, Nat.succ_mul, Nat.add_comm]

theorem kprod_length (cs : List Char) : ∀ n, (kprod cs n).length = cs.length ^ n
  | 0 => by simp [kprod]
  | n + 1 => by
    rw [kprod, flatMap_length_const _ (cs.length ^ n)]
    · ring
    · intro a _
      simp [kprod_length cs n]

theorem mem_kprod (cs : List Char) : ∀ n (t : List Char),
    t ∈ kprod cs n ↔ t.length = n ∧ ∀ c ∈ t, c ∈ cs
  | 0, t => by
    simp only [kprod, List.mem_singleton]
    constructor
    · rintro rfl; simp
    · rintro ⟨h0, -⟩; exact List.eq_nil_of_length_eq_zero h0
  | n + 1, t => by
    simp only [kprod, List.mem_flatMap, List.mem_map]
    constructor
    · rintro ⟨a, ha, u, hu, rfl⟩
      obtain ⟨hlen, hmem⟩ := (mem_kprod cs n u).1 hu
      refine ⟨by simp [hlen], ?_⟩
      intro c hc
      rcases List.mem_cons.1 hc with rfl | hc
      · exact ha
      · exact hmem c hc
    · rintro ⟨hlen, hmem⟩
      match t, hlen with
      | a :: u, hlen =>
        refine ⟨a, hmem a (by simp), u, ?_, rfl⟩
        exact (mem_kprod cs n u).2 ⟨by simpa using hlen, fun c hc => hmem c (by simp [hc])⟩

theorem kprod_split (cs : List Char) : ∀ p : List Char, (∀ c ∈ p, c ∈ cs) →
    ∃ A B, kprod cs p.length = A ++ p :: B ∧ A.length = rankIdx cs p
  | [], _ => ⟨[], [], by simp [kprod], by simp [rankIdx]⟩
  | c :: t, hp => by
    have hc : c ∈ cs := hp c (by simp)
    have ht : ∀ x ∈ t, x ∈ cs := fun x hx => hp x (by simp [hx])
    obtain ⟨A', B', hsplit, hlen⟩ := kprod_split cs t ht
    have hidx : cs.indexOf c < cs.length := List.indexOf_lt_length.2 hc
    have hcs : cs = cs.take (cs.indexOf c) ++ c :: cs.drop (cs.indexOf c + 1) := by
      conv_lhs => rw [← List.take_append_drop (cs.indexOf c) cs]
      rw [← List.getElem_cons_drop cs (cs.indexOf c) hidx, List.getElem_indexOf hidx]
    refine ⟨(cs.take (cs.indexOf c)).flatMap (fun a => (kprod cs t.length).map (a :: ·))
        ++ A'.map (c :: ·),
      B'.map (c :: ·) ++ (cs.drop (cs.indexOf c + 1)).flatMap
        (fun a => (kprod cs t.length).map (a :: ·)), ?_, ?_⟩
    · show kprod cs (t.length + 1) = _
      rw [kprod]
      simp only [hsplit]
      conv_lhs => rw [hcs]
      rw [List.flatMap_append, List.flatMap_cons]
      simp [List.map_append]
    · rw [List.length_append, List.length_map, hlen,
        flatMap_length_const _ (cs.length ^ t.length) _
          (fun a _ => by simp [kprod_length]),
        List.length_take, Nat.min_eq_left (Nat.le_of_lt hidx)]
      simp [rankIdx]

theorem range1_flatMap_kprod_length (cs : List Char) :
    ∀ m, ((List.range' 1 m).flatMap (kprod cs)).length = sumPow cs.length m
  | 0 => by simp [sumPow]
  | m + 1 => by
    rw [List.range'_1_concat, List.flatMap_append, List.length_append,
      range1_flatMap_kprod_length cs m]
    simp [sumPow, kprod_length, Nat.add_comm 1 m]

theorem candidates_split (cs : List Char) (p : List Char) (maxLen : Nat)
    (h1 : 1 ≤ p.length) (h2 : p.length ≤ maxLen) (hc : ∀ c ∈ p, c ∈ cs) :
    ∃ A B, candidates cs maxLen = A ++ p :: B ∧
      A.length = sumPow cs.length (p.length - 1) + rankIdx cs p := by
  obtain ⟨A', B', hsplit, hlen⟩ := kprod_split cs p hc
  have hrange : List.range' 1 maxLen =
      List.range' 1 (p.length - 1) ++ p.length :: List.range' (p.length + 1) (maxLen - p.length) := by
    have e1 : List.range' 1 (p.length - 1) ++ List.range' (1 + (p.length - 1)) (maxLen - (p.length - 1)) =
        List.range' 1 maxLen := by
      rw [List.range'_append_1]
      congr 1
      omega
    have e2 : (1 + (p.length - 1)) = p.length := by omega
    have e3 : maxLen - (p.length - 1) = (maxLen - p.length) + 1 := by omega
    rw [← e1, e2, e3, List.range'_succ]
  refine ⟨(List.range' 1 (p.length - 1)).flatMap (kprod cs) ++ A',
    B' ++ (List.range' (p.length + 1) (maxLen - p.length)).flatMap (kprod cs), ?_, ?_⟩
  · show (rangeIncl 1 maxLen).flatMap (kprod cs) = _
    have : rangeIncl 1 maxLen = List.range' 1 maxLen := by
      simp [rangeIncl]
    rw [this, hrange, List.flatMap_append, List.flatMap_cons, hsplit]
    simp
  · rw [List.length_append, range1_flatMap_kprod_length, hlen]

/-! ## Helper lemmas: the linear search -/

theorem searchList_append_no_match {β : Type} [DecidableEq β] (h : List Char → β) (tgt : β) :
    ∀ (l1 l2 : List (List Char)) (acc : Nat), (∀ q ∈ l1, h q ≠ tgt) →
      searchList h tgt (l1 ++ l2) acc = searchList h tgt l2 (acc + l1.length)
  | [], l2, acc, _ => by simp [searchList]
  | s :: r, l2, acc, hm => by
    have hs : ¬ h s = tgt := hm s (by simp)
    rw [List.cons_append, searchList, if_neg hs,
      searchList_append_no_match h tgt r l2 (acc + 1) (fun q hq => hm q (by simp [hq]))]
    congr 1
    simp [Nat.add_assoc, Nat.add_comm 1 r.length]

/-- The search engine finds the first match and counts its position:
the core of claims C2 and C3. -/
theorem single_search_rank {β : Type} [DecidableEq β] (h : List Char → β)
    (cs p : List Char) (maxLen : Nat)
    (h1 : 1 ≤ p.length) (h2 : p.length ≤ maxLen) (hc : ∀ c ∈ p, c ∈ cs)
    (hcoll : ∀ q ∈ (candidates cs maxLen).take
      (sumPow cs.length (p.length - 1) + rankIdx cs p), h q ≠ h p) :
    single_process_search h (h p) maxLen cs =
      (some p, sumPow cs.length (p.length - 1) + (rankIdx cs p + 1)) := by
  obtain ⟨A, B, hsplit, hlen⟩ := candidates_split cs p maxLen h1 h2 hc
  have htake : (candidates cs maxLen).take
      (sumPow cs.length (p.length - 1) + rankIdx cs p) = A := by
    rw [hsplit, ← hlen, List.take_left]
  have hA : ∀ q ∈ A, h q ≠ h p := fun q hq => hcoll q (htake ▸ hq)
  show searchList h (h p) (candidates cs maxLen) 0 = _
  rw [hsplit, searchList_append_no_match h (h p) A _ 0 hA, searchList, if_pos rfl]
  rw [hlen]
  congr 1
  omega

/-! ## Claim C2 -/

/-- C2: for every alphabet, every `max_length ≥ 1` and every target digest
produced by hashing a plaintext `p` of length `1..max_length` over that
alphabet that collides with no earlier-enumerated candidate,
`single_process_search` finds `p` and returns an attempts count equal to
the sum of `L^k` over the lengths `k` strictly below `p`'s length plus
`p`'s 1-based lexicographic rank (`rankIdx + 1`) within its own length
class. -/
theorem C2_single_search_exact_attempts {β : Type} [DecidableEq β]
    (h : List Char → β) (cs p : List Char) (maxLen : Nat)
    (h1 : 1 ≤ p.length) (h2 : p.length ≤ maxLen) (hc : ∀ c ∈ p, c ∈ cs)
    (hcoll : ∀ q ∈ (candidates cs maxLen).take
      (sumPow cs.length (p.length - 1) + rankIdx cs p), h q ≠ h p) :
    single_process_search h (h p) maxLen cs =
      (some p, sumPow cs.length (p.length - 1) + (rankIdx cs p + 1)) :=
  single_search_rank h cs p maxLen h1 h2 hc hcoll

/-- C2 witness: the spec's own scenario, alphabet `{a,b}`, `max_length = 2`,
target built from `"ab"` (under a collision-free digest function): found
`"ab"`, attempts `2 + 2 = 4`. -/
theorem C2_single_search_exact_attempts_witness :
    single_process_search (fun l : List Char => l) ['a', 'b'] 2 ['a', 'b'] =
      (some ['a', 'b'], 4) :=
  (C2_single_search_exact_attempts (fun l => l) ['a', 'b'] ['a', 'b'] 2
    (by decide) (by decide) (by decide) (by decide)).trans (by decide)

/-! ## Claim C3 -/

set_option maxRecDepth 40000 in
/-- C3 counterexample: with the 26-letter lowercase alphabet,
`max_length = 3` and the target built from `"zz"` (a digest function with
no collision in range, here an injective one), the search returns
attempts `= 702`, not the `701` the claim states: `"zz"` is the 676th
length-2 candidate (1-based), after all 26 length-1 candidates. -/
theorem C3_zz_attempts_counterexample :
    single_process_search (fun l : List Char => l) ['z', 'z'] 3 ascii_lowercase =
      (some ['z', 'z'], 702) ∧ (702 : Nat) ≠ 701 :=
  ⟨by decide, by decide⟩

/-- C3 amended: the same scenario returns found `"zz"` with attempts
`= 702` (`26` length-1 candidates plus the 1-based rank `676` of `"zz"`
among the length-2 candidates), for every digest function under which no
earlier-enumerated candidate collides with `"zz"`. -/
theorem C3_zz_attempts_702 {β : Type} [DecidableEq β] (h : List Char → β)
    (hcoll : ∀ q ∈ (candidates ascii_lowercase 3).take 701, h q ≠ h ['z', 'z']) :
    single_process_search h (h ['z', 'z']) 3 ascii_lowercase = (some ['z', 'z'], 702) := by
  have e : sumPow ascii_lowercase.length ((['z', 'z'] : List Char).length - 1) +
      rankIdx ascii_lowercase ['z', 'z'] = 701 := by decide
  have := single_search_rank h ascii_lowercase ['z', 'z'] 3
    (by decide) (by decide) (by decide) (by rw [e]; exact hcoll)
  exact this.trans (by decide)

set_option maxRecDepth 40000 in
/-- C3 witness: the amended theorem applied to a concrete collision-free
digest function. -/
theorem C3_zz_attempts_702_witness :
    single_process_search (fun l : List Char => l) ['z', 'z'] 3 ascii_lowercase =
      (some ['z', 'z'], 702) :=
  C3_zz_attempts_702 (fun l => l) (by decide)

/-! ## Claim C5: the partitioner's loops -/

theorem innerPairs_eq (a : Char) (w : Nat) :
    ∀ (r : List Char) (acc : List (List Char)), acc.length < w →
      innerPairs a w r acc =
        (acc ++ (r.map (fun b => [a, b])).take (w - acc.length),
          decide (w ≤ acc.length + r.length))
  | [], acc, h => by
    have hw : ¬ w ≤ acc.length + 0 := by omega
    simp [innerPairs, hw]
    omega
  | b :: r, acc, h => by
    rw [innerPairs]
    by_cases hw : w ≤ (acc ++ [[a, b]]).length
    · have hw1 : w = acc.length + 1 := by
        simp at hw
        omega
      have ht : w - acc.length = 1 := by omega
      have hd : w ≤ acc.length + (b :: r).length := by
        simp
        omega
      simp only [hw, if_pos, ht, List.map_cons, List.take_succ_cons, List.take_zero, hd,
        decide_eq_true_eq]
      simp [hd]
    · have h' : (acc ++ [[a, b]]).length < w := by
        simp at hw ⊢
        omega
      rw [if_neg hw, innerPairs_eq a w r (acc ++ [[a, b]]) h']
      have e1 : w - acc.length = (w - (acc ++ [[a, b]]).length) + 1 := by
        simp
        simp at h'
        omega
      have e2 : acc.length + (b :: r).length = (acc ++ [[a, b]]).length + r.length := by
        simp
        omega
      rw [e1, e2]
      simp [List.append_assoc]

theorem outerPairs_eq (cs : List Char) (w : Nat) :
    ∀ (r1 : List Char) (acc : List (List Char)), acc.length < w →
      outerPairs cs w r1 acc =
        acc ++ (r1.flatMap (fun a => cs.map (fun b => [a, b]))).take (w - acc.length)
  | [], acc, _ => by simp [outerPairs]
  | a :: r, acc, h => by
    rw [outerPairs, innerPairs_eq a w cs acc h]
    have hmaplen : (cs.map fun b => [a, b]).length = cs.length := by simp
    by_cases hfull : w ≤ acc.length + cs.length
    · rw [decide_eq_true hfull]
      show acc ++ (cs.map fun b => [a, b]).take (w - acc.length) = _
      rw [List.flatMap_cons, List.take_append_eq_append_take, hmaplen]
      have h0 : w - acc.length - cs.length = 0 := by omega
      rw [h0, List.take_zero, List.append_nil]
    · rw [decide_eq_false hfull]
      show outerPairs cs w r (acc ++ (cs.map fun b => [a, b]).take (w - acc.length)) = _
      have htake : (cs.map fun b => [a, b]).take (w - acc.length) = cs.map fun b => [a, b] :=
        List.take_of_length_le (by rw [hmaplen]; omega)
      rw [htake]
      have hlt : (acc ++ cs.map fun b => [a, b]).length < w := by
        simp only [List.length_append, hmaplen]
        omega
      have e : w - (acc ++ cs.map fun b => [a, b]).length = w - acc.length - cs.length := by
        simp only [List.length_append, hmaplen]
        omega
      rw [outerPairs_eq cs w r _ hlt, e, List.flatMap_cons,
        List.take_append_eq_append_take, hmaplen, htake, List.append_assoc]

/-- The partitioner agrees with the spec-side policy on every input. -/
theorem make_prefixes_eq_spec (cs : List Char) (w : Nat) :
    make_prefixes cs w = makePrefixesSpec cs w := by
  unfold make_prefixes makePrefixesSpec
  by_cases h1 : w ≤ 1
  · simp [h1]
  · simp only [h1, if_false]
    have hlen : (cs.map fun c => [c]).length = cs.length := by simp
    by_cases h2 : w ≤ cs.length
    · rw [if_pos (by rw [hlen]; exact h2), if_pos h2, List.map_take]
    · rw [if_neg (by rw [hlen]; exact h2), if_neg h2,
        outerPairs_eq cs w cs [] (by simp; omega)]
      simp

/-- C5: `make_prefixes` returns `['']` for `worker_count ≤ 1`; the first
`worker_count` one-symbol prefixes when `worker_count ≤` alphabet size;
otherwise two-symbol prefixes in lexicographic (Cartesian-product) order
until `worker_count` prefixes exist or the two-symbol space is exhausted,
and in that case never more than `alphabet size ^ 2` units. -/
theorem C5_partitioner_policy (cs : List Char) (w : Nat) :
    make_prefixes cs w = makePrefixesSpec cs w ∧
      (1 < w → cs.length < w → (make_prefixes cs w).length ≤ cs.length ^ 2) := by
  refine ⟨make_prefixes_eq_spec cs w, fun hw1 hw2 => ?_⟩
  rw [make_prefixes_eq_spec cs w]
  unfold makePrefixesSpec
  rw [if_neg (by omega), if_neg (by omega)]
  rw [List.length_take, flatMap_length_const _ cs.length cs (fun a _ => by simp)]
  have : cs.length * cs.length = cs.length ^ 2 := by ring
  omega

/-- C5 witness: alphabet `{a,b}` with 5 requested workers exhausts the
two-symbol space at `4 = 2^2` units. -/
theorem C5_partitioner_policy_witness :
    make_prefixes ['a', 'b'] 5 = makePrefixesSpec ['a', 'b'] 5 ∧
      (make_prefixes ['a', 'b'] 5).length ≤ (['a', 'b'] : List Char).length ^ 2 :=
  ⟨(C5_partitioner_policy ['a', 'b'] 5).1,
    (C5_partitioner_policy ['a', 'b'] 5).2 (by decide) (by decide)⟩

/-! ## Claim C4: what a worker enumerates -/

theorem lenBlock_eq_map (pfx cs : List Char) (len : Nat) :
    lenBlock pfx cs len = (kprod cs (len - pfx.length)).map (fun t => pfx ++ t) := by
  unfold lenBlock
  by_cases h : len - pfx.length = 0
  · rw [if_pos h, h]
    simp [kprod]
  · rw [if_neg h]

theorem mem_rangeIncl {m : Nat} (a b : Nat) : m ∈ rangeIncl a b ↔ a ≤ m ∧ m ≤ b := by
  unfold rangeIncl
  rw [List.mem_range'_1]
  omega

theorem mem_workerStream (pfx cs : List Char) (maxLen : Nat) (c : List Char) :
    c ∈ workerStream pfx cs maxLen ↔
      ∃ t, c = pfx ++ t ∧ (∀ x ∈ t, x ∈ cs) ∧ pfx.length + t.length ≤ maxLen := by
  unfold workerStream blocks
  rw [List.mem_flatten]
  constructor
  · rintro ⟨b, hb, hcb⟩
    rw [List.mem_map] at hb
    obtain ⟨len, hlen, rfl⟩ := hb
    rw [mem_rangeIncl] at hlen
    rw [lenBlock_eq_map, List.mem_map] at hcb
    obtain ⟨t, ht, rfl⟩ := hcb
    obtain ⟨htl, htc⟩ := (mem_kprod cs _ t).1 ht
    exact ⟨t, rfl, htc, by omega⟩
  · rintro ⟨t, rfl, htc, hle⟩
    refine ⟨lenBlock pfx cs (pfx.length + t.length), ?_, ?_⟩
    · exact List.mem_map_of_mem _ ((mem_rangeIncl _ _).2 ⟨by omega, hle⟩)
    · rw [lenBlock_eq_map, List.mem_map]
      exact ⟨t, (mem_kprod cs _ t).2 ⟨by omega, htc⟩, rfl⟩

/-- C4 counterexample: the claim says no candidate of length 0 (the empty
string) is ever hashed, the covered lengths starting at
`max(1, len(prefix))`; but with the empty prefix `worker_task`'s length
loop starts at `len('') = 0` and its first candidate is the empty string. -/
theorem C4_empty_string_hashed_counterexample :
    [] ∈ workerStream [] ['a'] 1 ∧ ([] : List Char).length = 0 :=
  ⟨by decide, rfl⟩

/-- C4 amended: for every prefix, alphabet and `max_length`, the candidates
`worker_task` hashes are exactly the prefix followed by alphabet symbols
with total length in `len(prefix)..max_length` — which is
`max(1, len(prefix))..max_length` for every nonempty prefix, while the
empty prefix additionally covers the length-0 empty string. -/
theorem C4_worker_candidate_lengths (pfx cs : List Char) (maxLen : Nat) (c : List Char) :
    c ∈ workerStream pfx cs maxLen ↔
      ∃ t, c = pfx ++ t ∧ (∀ x ∈ t, x ∈ cs) ∧
        pfx.length ≤ c.length ∧ c.length ≤ maxLen := by
  rw [mem_workerStream]
  constructor
  · rintro ⟨t, rfl, htc, hle⟩
    exact ⟨t, rfl, htc, by simp, by simp only [List.length_append]; omega⟩
  · rintro ⟨t, rfl, htc, -, hle⟩
    refine ⟨t, rfl, htc, ?_⟩
    simp only [List.length_append] at hle
    omega

/-! ## Claim C1: the partition misses part of the keyspace -/

/-- C1 (code bug): with alphabet `abc` and `worker_count = 2` the
partitioner yields only the units `'a'` and `'b'`; the keyspace candidate
`'c'` (already at `max_length = 1`) is enumerated by no unit, so the
multi-worker search misses part of the keyspace and the claimed
exhaustiveness invariant fails on the code. -/
theorem C1_partition_misses_keyspace :
    make_prefixes ['a', 'b', 'c'] 2 = [['a'], ['b']] ∧
      ['c'] ∈ keyspace ['a', 'b', 'c'] 1 ∧
      ∀ u ∈ make_prefixes ['a', 'b', 'c'] 2, ['c'] ∉ workerStream u ['a', 'b', 'c'] 1 := by
  refine ⟨by decide, by decide, by decide⟩

/-! ## Claims C8 and C10: the worker's counter discipline -/

theorem runBlock_inv {β : Type} [DecidableEq β] (h : List Char → β) (tgt : β) :
    ∀ (cands : List (List Char)) (st : WState) (f : Option (List Char)) (st' : WState),
      runBlock h tgt cands st = (f, st') →
      (st'.local_tries + st.tested = st.local_tries + st'.tested ∧
        st'.flushes = st.flushes ∧
        (f = none → st'.counter = st.counter ∧ st'.tested = st.tested + cands.length) ∧
        (f ≠ none → st'.counter = st.counter + st'.local_tries))
  | [], st, f, st', heq => by
    injection heq with h1 h2
    subst h1
    subst h2
    refine ⟨rfl, rfl, fun _ => ⟨rfl, by simp⟩, fun hn => absurd rfl hn⟩
  | c :: rest, st, f, st', heq => by
    rw [runBlock] at heq
    by_cases hc : h c = tgt
    · rw [if_pos hc] at heq
      injection heq with h1 h2
      subst h1
      subst h2
      refine ⟨by simp; omega, rfl, fun hn => by simp at hn, fun _ => rfl⟩
    · rw [if_neg hc] at heq
      obtain ⟨i1, i2, i3, i4⟩ := runBlock_inv h tgt rest _ f st' heq
      have i1' : st'.local_tries + (st.tested + 1) = (st.local_tries + 1) + st'.tested := i1
      refine ⟨by omega, i2, fun hn => ?_, i4⟩
      obtain ⟨j1, j2⟩ := i3 hn
      have j1' : st'.counter = st.counter := j1
      have j2' : st'.tested = (st.tested + 1) + rest.length := j2
      refine ⟨j1', ?_⟩
      simp only [List.length_cons]
      omega

theorem flushStep_counter (st : WState) :
    (flushStep st).counter + (flushStep st).local_tries = st.counter + st.local_tries := by
  unfold flushStep
  split
  · simp
  · rfl

theorem flushStep_tested (st : WState) : (flushStep st).tested = st.tested := by
  unfold flushStep
  split
  · rfl
  · rfl

theorem flushStep_flushes (st : WState)
    (hst : List.Forall flushOk st.flushes) :
    List.Forall flushOk (flushStep st).flushes := by
  unfold flushStep
  split
  · rename_i hcond
    simp only [List.forall_iff_forall_mem] at hst ⊢
    intro a ha
    simp only [List.mem_append, List.mem_singleton] at ha
    rcases ha with ha | rfl
    · exact hst a ha
    · exact ⟨Nat.pos_of_ne_zero hcond.1, hcond.2⟩
  · exact hst

theorem runLengths_inv {β : Type} [DecidableEq β] (h : List Char → β) (tgt : β) :
    ∀ (bs : List (List (List Char))) (st : WState) (f : Option (List Char))
      (rl : Nat) (st' : WState),
      runLengths h tgt bs st = (f, rl, st') →
      (st'.counter + st.tested = st.counter + st.local_tries + st'.tested ∧
        (f = none → st'.tested = st.tested + (bs.map List.length).sum) ∧
        (List.Forall flushOk st.flushes → List.Forall flushOk st'.flushes))
  | [], st, f, rl, st', heq => by
    rw [runLengths] at heq
    by_cases hl : st.local_tries ≠ 0
    · rw [if_pos hl] at heq
      injection heq with h1 h2
      injection h2 with h2 h3
      subst h1
      subst h3
      exact ⟨by simp, fun _ => by simp, fun hf => hf⟩
    · rw [if_neg hl] at heq
      injection heq with h1 h2
      injection h2 with h2 h3
      subst h1
      subst h3
      simp at hl
      exact ⟨by omega, fun _ => by simp, fun hf => hf⟩
  | blk :: rest, st, f, rl, st', heq => by
    rw [runLengths] at heq
    cases hrb : runBlock h tgt blk st with
    | mk ob stb =>
      rw [hrb] at heq
      obtain ⟨b1, b2, b3, b4⟩ := runBlock_inv h tgt blk st ob stb hrb
      cases ob with
      | some c =>
        simp only at heq
        injection heq with h1 h2
        injection h2 with h2 h3
        subst h1
        subst h3
        have hcnt := b4 (by simp)
        refine ⟨by omega, fun hn => by simp at hn, fun hf => b2 ▸ hf⟩
      | none =>
        simp only at heq
        obtain ⟨j1, j2⟩ := b3 rfl
        have hfc := flushStep_counter stb
        have hft := flushStep_tested stb
        obtain ⟨i1, i2, i3⟩ := runLengths_inv h tgt rest (flushStep stb) f rl st' heq
        refine ⟨by omega, fun hn => ?_, fun hf => i3 (flushStep_flushes stb (b2 ▸ hf))⟩
        have := i2 hn
        rw [List.map_cons, List.sum_cons] at *
        omega

/-- C10: for every `worker_task` run that completes (it always does in this
sequential model: match or exhaustion), the total amount its flushes add to
the shared counter equals exactly the number of candidates it hashed —
batching neither loses nor double-counts an attempt; on exhaustion that
count is the full work unit's size. -/
theorem C10_counter_exact {β : Type} [DecidableEq β] (h : List Char → β) (tgt : β)
    (pfx cs : List Char) (maxLen : Nat) (counter0 : Nat) :
    (worker_task h tgt pfx cs maxLen counter0).2.2.counter =
        counter0 + (worker_task h tgt pfx cs maxLen counter0).2.2.tested ∧
      ((worker_task h tgt pfx cs maxLen counter0).1 = none →
        (worker_task h tgt pfx cs maxLen counter0).2.2.tested =
          (workerStream pfx cs maxLen).length) := by
  unfold worker_task
  cases hrun : runLengths h tgt (blocks pfx cs maxLen)
      { local_tries := 0, counter := counter0, tested := 0, maxBuf := 0, flushes := [] } with
  | mk f p =>
    cases p with
    | mk rl st' =>
      obtain ⟨i1, i2, -⟩ := runLengths_inv h tgt _ _ f rl st' hrun
      simp only at i1 i2 ⊢
      refine ⟨by omega, fun hn => ?_⟩
      have := i2 hn
      unfold workerStream
      rw [List.length_flatten]
      omega

theorem lenBlock_length (pfx cs : List Char) (len : Nat) :
    (lenBlock pfx cs len).length = cs.length ^ (len - pfx.length) := by
  unfold lenBlock
  split
  · rename_i h0
    rw [h0]
    simp
  · simp [kprod_length]

theorem runBlock_no_match {β : Type} [DecidableEq β] (h : List Char → β) (tgt : β) :
    ∀ (cands : List (List Char)) (st : WState),
      (∀ c ∈ cands, h c ≠ tgt) → st.local_tries ≤ st.maxBuf →
      runBlock h tgt cands st =
        (none, { st with
          local_tries := st.local_tries + cands.length
          tested := st.tested + cands.length
          maxBuf := max st.maxBuf (st.local_tries + cands.length) })
  | [], st, _, hle => by
    obtain ⟨l, c, t, m, fl⟩ := st
    simp only at hle
    rw [runBlock]
    simp only [List.length_nil, Nat.add_zero, Prod.mk.injEq, WState.mk.injEq, true_and, and_true]
    omega
  | c :: rest, st, hnm, hle => by
    obtain ⟨l, cn, t, m, fl⟩ := st
    simp only at hle
    rw [runBlock, if_neg (hnm c (by simp)),
      runBlock_no_match h tgt rest _ (fun x hx => hnm x (by simp [hx]))
        (by simp)]
    simp only [List.length_cons, Prod.mk.injEq, WState.mk.injEq, true_and, and_true]
    refine ⟨?_, ?_, ?_⟩ <;> omega

theorem flushStep_noop (st : WState)
    (hcond : ¬(st.local_tries ≠ 0 ∧ st.local_tries % 1000 = 0)) : flushStep st = st := by
  unfold flushStep
  rw [if_neg hcond]

theorem runLengths_no_flush {β : Type} [DecidableEq β] (h : List Char → β) (tgt : β) :
    ∀ (bs : List (List (List Char))) (st : WState),
      (∀ blk ∈ bs, ∀ c ∈ blk, h c ≠ tgt) →
      st.local_tries ≤ st.maxBuf →
      noFlush st.local_tries (bs.map List.length) = true →
      0 < st.local_tries + (bs.map List.length).sum →
      runLengths h tgt bs st =
        (none, 0, { st with
          local_tries := st.local_tries + (bs.map List.length).sum
          counter := st.counter + (st.local_tries + (bs.map List.length).sum)
          tested := st.tested + (bs.map List.length).sum
          maxBuf := max st.maxBuf (st.local_tries + (bs.map List.length).sum) })
  | [], st, _, hle, _, hpos => by
    obtain ⟨l, c, t, m, fl⟩ := st
    simp only at hle
    simp only [List.map_nil, List.sum_nil, Nat.add_zero] at hpos ⊢
    rw [runLengths]
    rw [if_pos (by simp only []; omega)]
    simp only [Prod.mk.injEq, WState.mk.injEq, true_and, and_true]
    omega
  | blk :: rest, st, hnm, hle, hnf, hpos => by
    rw [runLengths,
      runBlock_no_match h tgt blk st (hnm blk (by simp)) hle]
    simp only [List.map_cons, List.sum_cons] at hpos ⊢
    rw [List.map_cons] at hnf
    unfold noFlush at hnf
    rw [Bool.and_eq_true, Bool.not_eq_eq_eq_not, Bool.not_true, decide_eq_false_iff_not] at hnf
    obtain ⟨hc1, hc2⟩ := hnf
    rw [flushStep_noop _ hc1]
    rw [runLengths_no_flush h tgt rest _
      (fun b hb => hnm b (by simp [hb]))
      (by simp)
      (by simpa using hc2)
      (by simp
          omega)]
    obtain ⟨l, cn, t, m, fl⟩ := st
    simp only [Prod.mk.injEq, WState.mk.injEq, true_and, and_true]
    refine ⟨?_, ?_, ?_, ?_⟩ <;> omega

/-- C8 counterexample: with prefix `'a'`, alphabet `{a,b}` and
`max_length = 10`, the worker tests `1 + 2 + ... + 512 = 1023` candidates;
its buffered count reaches 1023 — beyond the claimed 1000 bound — and the
periodic flush (which fires only on an exact multiple of 1000 at a
length-block boundary) never fires at all. -/
theorem C8_buffer_exceeds_1000_counterexample :
    (worker_task (fun _ => (0 : Nat)) 1 ['a'] ['a', 'b'] 10 0).2.2.maxBuf = 1023 ∧
      (worker_task (fun _ => (0 : Nat)) 1 ['a'] ['a', 'b'] 10 0).2.2.flushes = [] ∧
      1000 < 1023 := by
  have hlens : (blocks ['a'] ['a', 'b'] 10).map List.length =
      [1, 2, 4, 8, 16, 32, 64, 128, 256, 512] := by
    unfold blocks
    rw [List.map_map]
    have hr : rangeIncl (['a'] : List Char).length 10 = [1, 2, 3, 4, 5, 6, 7, 8, 9, 10] := by
      decide
    rw [hr]
    simp only [List.map_cons, List.map_nil, Function.comp_apply, lenBlock_length]
    norm_num
  have hrun := runLengths_no_flush (fun _ => (0 : Nat)) 1 (blocks ['a'] ['a', 'b'] 10)
    { local_tries := 0, counter := 0, tested := 0, maxBuf := 0, flushes := [] }
    (fun blk _ c _ => by simp)
    (Nat.le_refl 0)
    (by rw [hlens]; decide)
    (by rw [hlens]; decide)
  rw [hlens] at hrun
  show (worker_task (fun _ => (0 : Nat)) 1 ['a'] ['a', 'b'] 10 0).2.2.maxBuf = 1023 ∧ _
  unfold worker_task
  rw [hrun]
  refine ⟨by norm_num, rfl, by norm_num⟩

/-- C8 amended: `worker_task` checks its flush condition only once per
length-block, and flushes only when the buffered count is then an exact
positive multiple of 1000 (every periodic flush amount is one); the
buffered count is not bounded by 1000 between flushes — the remainder is
moved only by the final flush on match or exhaustion. -/
theorem C8_flush_cadence {β : Type} [DecidableEq β] (h : List Char → β) (tgt : β)
    (pfx cs : List Char) (maxLen : Nat) (counter0 : Nat) :
    List.Forall flushOk (worker_task h tgt pfx cs maxLen counter0).2.2.flushes := by
  unfold worker_task
  cases hrun : runLengths h tgt (blocks pfx cs maxLen)
      { local_tries := 0, counter := counter0, tested := 0, maxBuf := 0, flushes := [] } with
  | mk f p =>
    cases p with
    | mk rl st' =>
      obtain ⟨-, -, i3⟩ := runLengths_inv h tgt _ _ f rl st' hrun
      exact i3 (by simp [List.Forall])

/-! ## Claim C7: max_length is not validated -/

/-- C7 counterexample: with `max_length = 0 < 1` no configuration error is
reported and the search is entered: it returns the not-found SearchResult
`(None, 0)` that the claim says is never produced. -/
theorem C7_maxlen_counterexample :
    single_process_search_int (fun l : List Char => l) ['a'] 0 ['a', 'b'] = (none, 0) ∧
      (0 : Int) < 1 :=
  ⟨by decide, by decide⟩

/-- C7 amended: `max_length < 1` is not validated at all: no error is
raised and the search body runs over an empty length range
(`range(1, max_len + 1)` is empty), hashes no candidate, and returns a
not-found result with attempts `= 0`. -/
theorem C7_maxlen_lt_one_empty_search {β : Type} [DecidableEq β] (h : List Char → β)
    (tgt : β) (cs : List Char) (maxLen : Int) (hml : maxLen < 1) :
    single_process_search_int h tgt maxLen cs = (none, 0) := by
  unfold single_process_search_int single_process_search
  have h0 : maxLen.toNat = 0 := by omega
  rw [h0]
  have hc : candidates cs 0 = [] := by
    unfold candidates rangeIncl
    simp
  rw [hc]
  rfl

/-- C7 witness: the amended theorem at `max_length = -2`. -/
theorem C7_maxlen_lt_one_empty_search_witness :
    single_process_search_int (fun l : List Char => l) ['z'] (-2) ['a'] = (none, 0) :=
  C7_maxlen_lt_one_empty_search _ _ _ _ (by decide)

/-! ## Claim C6: no pre-search algorithm validation -/

/-- C6 counterexample: with an unsupported algorithm
(`hashlib.new` raising), the search enumerates its first candidate and only
then raises — the error carries `tries = 1 ≠ 0`, so it is not reported
before any candidate is enumerated, and no pre-search configuration check
exists. -/
theorem C6_alg_error_counterexample :
    single_process_search_exc false (fun l : List Char => l) ['a'] 2 ['a', 'b'] =
        .error 1 ∧ (1 : Nat) ≠ 0 :=
  ⟨by rfl, by decide⟩

/-- C6 amended: `main` forces the algorithm to `'md5'` (line 136), so an
unsupported algorithm never reaches the search; and had
`single_process_search` been run with one, the `ValueError` from
`hashlib.new` would surface while hashing the first candidate — after one
candidate is enumerated (`tries = 1`), not before the search starts. -/
theorem C6_alg_error_on_first_candidate {β : Type} [DecidableEq β]
    (h : List Char → β) (tgt : β) (maxLen : Nat) (cs : List Char)
    (hml : 1 ≤ maxLen) (hcs : cs ≠ []) :
    single_process_search_exc false h tgt maxLen cs = .error 1 := by
  have hL : 0 < cs.length := List.length_pos.2 hcs
  have hlen : (candidates cs maxLen).length = sumPow cs.length maxLen := by
    unfold candidates rangeIncl
    have e : maxLen + 1 - 1 = maxLen := by omega
    rw [e, range1_flatMap_kprod_length]
  have hpos : 0 < (candidates cs maxLen).length := by
    rw [hlen]
    obtain ⟨n, rfl⟩ : ∃ n, maxLen = n + 1 := ⟨maxLen - 1, by omega⟩
    have hp : 0 < cs.length ^ (n + 1) := pow_pos hL (n + 1)
    unfold sumPow
    omega
  obtain ⟨x, rest, heq⟩ := List.exists_cons_of_ne_nil (List.ne_nil_of_length_pos hpos)
  unfold single_process_search_exc
  rw [heq]
  rfl

/-- C6 witness: the amended theorem at a concrete unsupported-algorithm
configuration. -/
theorem C6_alg_error_on_first_candidate_witness :
    single_process_search_exc false (fun l : List Char => l) ['q'] 1 ['x'] = .error 1 :=
  C6_alg_error_on_first_candidate _ _ _ _ (by decide) (by decide)

/-! ## Claim C9: the algorithm is always md5 -/

theorem hexDigitVal_hexDigitChar : ∀ n < 16, hexDigitVal (hexDigitChar n) = some n := by
  decide

theorem bytes_fromhex_hexdigest :
    ∀ bs : List Nat, (∀ b ∈ bs, b < 256) → bytes_fromhex (hexdigest bs) = some bs
  | [], _ => by simp [hexdigest, bytes_fromhex]
  | b :: rest, hb => by
    have hb0 : b < 256 := hb b (by simp)
    have e : hexdigest (b :: rest) =
        hexDigitChar (b / 16) :: hexDigitChar (b % 16) :: hexdigest rest := by
      rw [hexdigest, List.flatMap_cons]
      rfl
    rw [e, bytes_fromhex,
      hexDigitVal_hexDigitChar (b / 16) (by omega),
      hexDigitVal_hexDigitChar (b % 16) (by omega),
      bytes_fromhex_hexdigest rest (fun x hx => hb x (by simp [hx]))]
    have ed : 16 * (b / 16) + b % 16 = b := Nat.div_add_mod b 16
    simp [ed]

/-- C9: `main` binds `alg = 'md5'` unconditionally (line 136), hashes the
supplied password with `'md5'` (line 155), and the hex round-trip of lines
155/164 returns exactly that digest; so - whatever `--alg` said - the
single-process search compares every candidate under `'md5'` against the
md5 digest of the password, and every worker tuple of the multiprocessing
path carries the algorithm string `'md5'`. -/
theorem C9_md5_forced (h : String → List Char → List Nat) (password : List Char)
    (argsAlg : String) (maxLen : Nat) (cs : List Char) (workers : Nat)
    (hbytes : ∀ b ∈ h "md5" password, b < 256) :
    main_single h password argsAlg maxLen cs =
        some (single_process_search (h "md5") (h "md5" password) maxLen cs) ∧
      main_pool_args h password argsAlg maxLen cs workers =
        some ((make_prefixes cs workers).map
          (fun pfx => (pfx, h "md5" password, "md5", maxLen, cs))) := by
  unfold main_single main_pool_args
  simp only [bytes_fromhex_hexdigest _ hbytes]
  constructor <;> trivial

/-- C9 witness: a concrete digest function and password; `--alg sha256` is
ignored, both paths use `'md5'`. -/
theorem C9_md5_forced_witness :
    main_single (fun _ _ => [0, 255]) ['a'] "sha256" 1 ['a'] =
        some (single_process_search (fun _ => ([0, 255] : List Nat)) [0, 255] 1 ['a']) ∧
      main_pool_args (fun _ _ => [0, 255]) ['a'] "sha256" 1 ['a'] 3 =
        some ((make_prefixes ['a'] 3).map
          (fun pfx => (pfx, ([0, 255] : List Nat), "md5", 1, ['a']))) :=
  C9_md5_forced (fun _ _ => [0, 255]) ['a'] "sha256" 1 ['a'] 3 (by decide)
